import Mathlib

/-!
Verification of the ooni-sync repository (Go) against its natural-language
specification.  The definitions below are a shallow embedding of the program
(the full version of the tool, the one with the -xz output filter, tracked
temp-file cleanup and exit-status accounting); theorems settle the frozen
claims about it.
-/

namespace OoniSync

/-! ## Data model (Go structs ooniMetadata, ooniResult, ooniIndexPage) -/

/-- Go constant ooniAPILimit = 1000. -/
def ooniAPILimit : Nat := 1000

/-- Go constant numDownloadThreads = 5. -/
def numDownloadThreads : Nat := 5

structure OoniMetadata where
  count : Nat
  offset : Nat
  limit : Nat
deriving DecidableEq

structure OoniResult where
  downloadURL : String
  index : Nat
deriving DecidableEq

structure OoniIndexPage where
  metadata : OoniMetadata
  results : List OoniResult
deriving DecidableEq

/-- The distinct error outcomes produced by processIndex (each corresponds to
one fmt.Errorf in the Go source; fetchFailed stands for a failed
fetchIndexPage call, here: running out of server pages). -/
inductive IndexError where
  | fetchFailed
  | limitMismatch (expected got : Nat)
  | offsetMismatch (expected got : Nat)
  | zeroResults
  | offsetExceedsCount (offset count : Nat)
deriving DecidableEq

/-- The download URLs of one index page, in page order (the loop
`for _, result := range indexPage.Results` pushing result.DownloadURL). -/
def pageURLs (p : OoniIndexPage) : List String :=
  p.results.map (fun r => r.downloadURL)

/-- Concatenation of the URLs of a list of pages, in order. -/
def pagesURLs : List OoniIndexPage → List String
  | [] => []
  | p :: rest => pageURLs p ++ pagesURLs rest

/-- Shallow embedding of Go processIndex.  The server is modelled as the list
of index pages it would return to successive requests; the value is the list
of URLs pushed to downloadURLChan together with the error returned (none on
normal termination).  Mirrors the Go loop: fetch a page, check
limit == ooniAPILimit, check offset == requested offset, check
(count > 0 && len(results) == 0), advance offset by len(results), check
offset > count, emit the page's URLs, break when offset == count. -/
def processIndex : List OoniIndexPage → Nat → List String × Option IndexError
  | [], _ => ([], some IndexError.fetchFailed)
  | p :: rest, offset =>
    if p.metadata.limit ≠ ooniAPILimit then
      ([], some (IndexError.limitMismatch ooniAPILimit p.metadata.limit))
    else if offset ≠ p.metadata.offset then
      ([], some (IndexError.offsetMismatch offset p.metadata.offset))
    else if p.metadata.count > 0 ∧ p.results.length = 0 then
      ([], some IndexError.zeroResults)
    else
      if offset + p.results.length > p.metadata.count then
        ([], some (IndexError.offsetExceedsCount (offset + p.results.length) p.metadata.count))
      else if offset + p.results.length = p.metadata.count then
        (pageURLs p, none)
      else
        let r := processIndex rest (offset + p.results.length)
        (pageURLs p ++ r.1, r.2)

/-- A page sequence on which the Go loop, started at the given offset, passes
every sanity check and terminates normally: every page reports the requested
limit and offset, intermediate pages leave the cumulative offset strictly
below their reported count, and the last page makes the cumulative offset
equal its reported count. -/
inductive GoodSeq : Nat → List OoniIndexPage → Prop
  | last (offset : Nat) (p : OoniIndexPage) :
      p.metadata.limit = ooniAPILimit →
      p.metadata.offset = offset →
      ¬(p.metadata.count > 0 ∧ p.results.length = 0) →
      offset + p.results.length = p.metadata.count →
      GoodSeq offset [p]
  | cons (offset : Nat) (p : OoniIndexPage) (rest : List OoniIndexPage) :
      p.metadata.limit = ooniAPILimit →
      p.metadata.offset = offset →
      p.results.length ≠ 0 →
      offset + p.results.length < p.metadata.count →
      GoodSeq (offset + p.results.length) rest →
      GoodSeq offset (p :: rest)

/-- A page sequence on which the Go loop passes every check but keeps looping
(cumulative offset stays strictly below every reported count); the second
index is the cumulative offset after consuming the whole sequence. -/
inductive ContSeq : Nat → Nat → List OoniIndexPage → Prop
  | nil (offset : Nat) : ContSeq offset offset []
  | cons (offset offE : Nat) (p : OoniIndexPage) (rest : List OoniIndexPage) :
      p.metadata.limit = ooniAPILimit →
      p.metadata.offset = offset →
      p.results.length ≠ 0 →
      offset + p.results.length < p.metadata.count →
      ContSeq (offset + p.results.length) offE rest →
      ContSeq offset offE (p :: rest)

/-! ## Atomic downloader (Go downloadToWriteCloser / downloadToTmpFile).
The environment bundles the outcomes of the external effects (ioutil.TempFile,
the downloadFilter constructor, http.Get, io.Copy, the Body.Close and
w.Close calls); the functions return the Go return value together with the
trace of observable events they perform, in order. -/

structure HttpResponse where
  status : Nat
  statusText : String
  body : List Nat
deriving DecidableEq

inductive DLEvent where
  | createTempFile (name : String)
  | sendTmpName (name : String)
  | net
  | closeOut
  | deleteFile (name : String)
  | renameFile (src dst : String)
deriving DecidableEq

structure DLEnv where
  tempFile : Except String String
  filterInit : Except String Unit
  get : Except String HttpResponse
  copyFail : Option (String × Nat)
  bodyCloseErr : Option String
  closeErr : Option String

/-- Shallow embedding of Go downloadToWriteCloser: http.Get (a network
access), then the status check (any status other than 200 returns an error
without reading the body), then io.Copy of the body into the writer (more
network traffic; on a copy failure only the bytes copied so far were
written).  The deferred resp.Body.Close error is observed only when no
earlier error occurred, as in the Go defer over the named return value. -/
def downloadToWriteCloser (env : DLEnv) (w : List Nat) :
    (List Nat × Option String) × List DLEvent :=
  match env.get with
  | Except.error e => ((w, some e), [DLEvent.net])
  | Except.ok resp =>
    if resp.status ≠ 200 then
      ((w, some (String.append "got " resp.statusText)), [DLEvent.net])
    else
      match env.copyFail with
      | some ek => ((w ++ resp.body.take ek.2, some ek.1), [DLEvent.net, DLEvent.net])
      | none => ((w ++ resp.body, env.bodyCloseErr), [DLEvent.net, DLEvent.net])

/-- Shallow embedding of Go downloadToTmpFile: create the temp file, send its
name on tmpFilenameChan, build the output filter, stream the download through
it, close the writer (w.Close error observed only when no earlier error).
Returns (tmpfile.Name(), err) — with "" for the name on the two early-return
paths — together with the event trace. -/
def downloadToTmpFile (env : DLEnv) : (String × Option String) × List DLEvent :=
  match env.tempFile with
  | Except.error e => (("", some e), [])
  | Except.ok name =>
    match env.filterInit with
    | Except.error e =>
      (("", some e), [DLEvent.createTempFile name, DLEvent.sendTmpName name])
    | Except.ok _ =>
      let d := downloadToWriteCloser env []
      let err := match d.1.2 with
        | some e => some e
        | none => env.closeErr
      ((name, err),
       DLEvent.createTempFile name :: DLEvent.sendTmpName name :: d.2 ++ [DLEvent.closeOut])

/-! ## Existence filter (Go maybeDownload and its filename derivation).
pathBase, cleanElems, pathClean and filepathJoin are the Go standard library
functions path.Base, path.Clean and filepath.Join (on slash-separated paths)
that maybeDownload uses to derive the local filename. -/

/-- Go path.Base: "." for the empty path, strip trailing slashes, "/" if only
slashes remained, else everything after the last slash. -/
def pathBase (p : String) : String :=
  if p = "" then "."
  else
    let stripped := (p.data.reverse.dropWhile (fun c => c == '/')).reverse
    if stripped = [] then "/"
    else String.mk (stripped.reverse.takeWhile (fun c => c != '/')).reverse

/-- The element-stack core of Go path.Clean: skip empty and "." elements;
".." pops the last element unless there is none (absolute paths drop it,
relative paths keep it); other elements are pushed.  The stack is kept in
reverse order. -/
def cleanElems (rooted : Bool) : List String → List String → List String
  | [], stack => stack
  | e :: rest, stack =>
    if e = "" ∨ e = "." then cleanElems rooted rest stack
    else if e = ".." then
      match stack with
      | top :: stack2 =>
        if top = ".." then cleanElems rooted rest (".." :: top :: stack2)
        else cleanElems rooted rest stack2
      | [] =>
        if rooted then cleanElems rooted rest []
        else cleanElems rooted rest [".."]
    else cleanElems rooted rest (e :: stack)

/-- Splitting a path on slashes, keeping empty elements (strings.Split on
"/", as the element loop of Go path.Clean sees the path). -/
def splitSlashAux : List Char → List Char → List String
  | [], acc => [String.mk acc.reverse]
  | ch :: rest, acc =>
    if ch = '/' then String.mk acc.reverse :: splitSlashAux rest []
    else splitSlashAux rest (ch :: acc)

def splitSlash (p : String) : List String :=
  splitSlashAux p.data []

/-- Go path.Clean (equivalently filepath.Clean on slash-separated paths). -/
def pathClean (p : String) : String :=
  if p = "" then "."
  else
    let rooted : Bool := match p.data with
      | '/' :: _ => true
      | _ => false
    let stack := (cleanElems rooted (splitSlash p) []).reverse
    if rooted then String.append "/" (String.intercalate "/" stack)
    else if stack = [] then "." else String.intercalate "/" stack

/-- Go filepath.Join: join the elements from the first non-empty one with
slashes and Clean the result; "" when every element is empty. -/
def filepathJoin (elems : List String) : String :=
  match elems.dropWhile (fun e => e == "") with
  | [] => ""
  | rest => pathClean (String.intercalate "/" rest)

/-- Go struct result: the state of one download attempt, as handed from a
worker to the coordinator loop. -/
structure DownloadResult where
  url : String
  localFilename : String
  tmpFilename : String
  alreadyExists : Bool
  err : Option String
deriving DecidableEq

/-- The part of Go url.Parse's output that maybeDownload consumes. -/
structure GoURL where
  path : String
deriving DecidableEq

/-- Outcome of os.Stat as classified by maybeDownload: success, the
os.IsNotExist case, or any other error. -/
inductive StatResult where
  | found
  | notExist
  | statError (e : String)
deriving DecidableEq

/-- Environment of one worker invocation: the url.Parse and os.Stat oracles
and the downloader's effect outcomes. -/
structure FSEnv where
  parseURL : String → Except String GoURL
  stat : String → StatResult
  dl : DLEnv

/-- Shallow embedding of Go maybeDownload: parse the URL (a parse failure is
recorded in the result's err), derive the local filename as
filepath.Join(outputDirectory, path.Base(u.Path)) + outputExtension, stat it
(found means the result reports Exists with no download; a stat error other
than not-exist is recorded in err), otherwise run downloadToTmpFile.  Also
returns the downloader's event trace (empty when no download was started). -/
def maybeDownload (fs : FSEnv) (outputDirectory outputExtension : String)
    (urlString : String) : DownloadResult × List DLEvent :=
  match fs.parseURL urlString with
  | Except.error e =>
    ({ url := urlString, localFilename := "", tmpFilename := "",
       alreadyExists := false, err := some e }, [])
  | Except.ok u =>
    let localFilename :=
      String.append (filepathJoin [outputDirectory, pathBase u.path]) outputExtension
    match fs.stat localFilename with
    | StatResult.found =>
      ({ url := urlString, localFilename := localFilename, tmpFilename := "",
         alreadyExists := true, err := none }, [])
    | StatResult.statError e =>
      ({ url := urlString, localFilename := localFilename, tmpFilename := "",
         alreadyExists := false, err := some e }, [])
    | StatResult.notExist =>
      let d := downloadToTmpFile fs.dl
      ({ url := urlString, localFilename := localFilename, tmpFilename := d.1.1,
         alreadyExists := false, err := d.1.2 }, d.2)

/-! ## Sync coordinator (Go main: the select loop over tmpFilenameChan,
resultChan and sigChan, the cleanup sweep over the tracked set, and the exit
status).  The system state carries the names on disk, the temp names created
so far by workers, the coordinator's tmpFilenames map, the temp-name notices
sent but not yet received (the channel is unbuffered, so a notice is pending
from the moment ioutil.TempFile returns until the coordinator's select takes
it), the error counter, the signal flag, the control phase, and a ghost
history of logged events. -/

inductive Phase where
  | running
  | stopped
  | done
deriving DecidableEq

inductive SyncEvent where
  | errorLogged
  | existsLogged
  | okLogged
  | interrupt
  | cleanupError
deriving DecidableEq

structure SyncState where
  disk : List String
  createdTemps : List String
  tracked : List String
  pending : List String
  numErrors : Nat
  signalFlag : Bool
  phase : Phase
  events : List SyncEvent
deriving DecidableEq

/-- Start of a run: d0 is whatever the output directory already holds; no
temp file created, tracked or pending; no error; no signal. -/
def initState (d0 : List String) : SyncState :=
  { disk := d0, createdTemps := [], tracked := [], pending := [],
    numErrors := 0, signalFlag := false, phase := Phase.running,
    events := [] }

/-- The cleanup sweep (Go: for tmpFilename := range tmpFilenames
{ os.Remove(...) }) followed by process exit.  F is the set of names whose
os.Remove fails: those stay on disk and each failure is logged and counted;
the others are removed from disk.  Deletion is attempted exactly once per
tracked name. -/
def cleanupRun (s : SyncState) (F : List String) : SyncState :=
  { s with
    disk := s.disk.filter (fun f => decide (f ∉ s.tracked ∨ f ∈ F)),
    numErrors :=
      s.numErrors + (s.tracked.filter (fun t => decide (t ∈ F))).length,
    events :=
      List.replicate (s.tracked.filter (fun t => decide (t ∈ F))).length
        SyncEvent.cleanupError ++ s.events,
    phase := Phase.done }

/-- One transition of the running system.  Worker side: createTemp is
ioutil.TempFile succeeding inside downloadToTmpFile (a fresh name appears on
disk and its notice is sent).  Coordinator side: recvNotice is the
tmpFilenameChan select arm; resultError / resultExists / resultRenameOk /
resultRenameFail are the resultChan arm on the three kinds of result (the
rename may fail, in which case the temp file stays tracked); interrupt is the
sigChan arm; finish is resultChan closing; cleanup is the final sweep. -/
inductive Step : SyncState → SyncState → Prop
  | createTemp (s : SyncState) (tmp : String) :
      s.phase = Phase.running → tmp ∉ s.disk → tmp ∉ s.createdTemps →
      Step s { s with disk := tmp :: s.disk,
                      createdTemps := tmp :: s.createdTemps,
                      pending := tmp :: s.pending }
  | recvNotice (s : SyncState) (tmp : String) :
      s.phase = Phase.running → tmp ∈ s.pending →
      Step s { s with pending := s.pending.erase tmp,
                      tracked := tmp :: s.tracked }
  | resultError (s : SyncState) (r : DownloadResult) :
      s.phase = Phase.running → r.err ≠ none →
      Step s { s with numErrors := s.numErrors + 1,
                      events := SyncEvent.errorLogged :: s.events }
  | resultExists (s : SyncState) (r : DownloadResult) :
      s.phase = Phase.running → r.err = none → r.alreadyExists = true →
      Step s { s with events := SyncEvent.existsLogged :: s.events }
  | resultRenameOk (s : SyncState) (r : DownloadResult) :
      s.phase = Phase.running → r.err = none → r.alreadyExists = false →
      r.tmpFilename ∈ s.disk → r.localFilename ∉ s.createdTemps →
      Step s { s with disk := r.localFilename :: s.disk.erase r.tmpFilename,
                      tracked := s.tracked.erase r.tmpFilename,
                      events := SyncEvent.okLogged :: s.events }
  | resultRenameFail (s : SyncState) (r : DownloadResult) :
      s.phase = Phase.running → r.err = none → r.alreadyExists = false →
      Step s { s with numErrors := s.numErrors + 1,
                      events := SyncEvent.errorLogged :: s.events }
  | interrupt (s : SyncState) :
      s.phase = Phase.running →
      Step s { s with signalFlag := true, phase := Phase.stopped,
                      events := SyncEvent.interrupt :: s.events }
  | finish (s : SyncState) :
      s.phase = Phase.running →
      Step s { s with phase := Phase.stopped }
  | cleanup (s : SyncState) (F : List String) :
      s.phase = Phase.stopped →
      Step s (cleanupRun s F)

/-- States reachable from the start of a run over initial disk d0. -/
inductive Reachable (d0 : List String) : SyncState → Prop
  | init : Reachable d0 (initState d0)
  | step {s t : SyncState} : Reachable d0 s → Step s t → Reachable d0 t

/-- Go main's exit status: os.Exit(1) when numErrors > 0 or the signal flag
is set, implicit exit 0 otherwise. -/
def exitCode (s : SyncState) : Nat :=
  if 0 < s.numErrors ∨ s.signalFlag = true then 1 else 0

/-- The invariant exactly as the specification states it: every temp file of
this run physically present on disk is represented in the coordinator's
tracked set (a file already renamed or already deleted is no longer present
under its temp name, so presence reduces the disjunction to being tracked). -/
def trackedInvariant (s : SyncState) : Prop :=
  ∀ t ∈ s.createdTemps, t ∈ s.disk → t ∈ s.tracked

/-- Count of logged errors (per-item errors, rename failures and cleanup
deletion failures) in the ghost event history. -/
def errorEventCount (evs : List SyncEvent) : Nat :=
  (evs.filter
    (fun e => e == SyncEvent.errorLogged || e == SyncEvent.cleanupError)).length

/-- The state right after a worker created its temp file, before the
coordinator's select has taken the notice off the unbuffered channel. -/
def afterCreateState : SyncState :=
  { disk := ["ooni-sync.tmp.1"], createdTemps := ["ooni-sync.tmp.1"],
    tracked := [], pending := ["ooni-sync.tmp.1"],
    numErrors := 0, signalFlag := false, phase := Phase.running,
    events := [] }

/-- A clean run that saw no item at all: the result stream closes, the sweep
finds nothing tracked, the process exits. -/
def cleanDoneState : SyncState :=
  cleanupRun { initState [] with phase := Phase.stopped } []

/-- A downloader environment in which every effect succeeds: the temp file is
created, the filter initializes, the server answers 200 with a two-byte body,
and every close succeeds. -/
def dlEnvOk : DLEnv :=
  { tempFile := Except.ok "ooni-sync.tmp.3", filterInit := Except.ok (),
    get := Except.ok ⟨200, "200 OK", [104, 105]⟩,
    copyFail := none, bodyCloseErr := none, closeErr := none }

/-- A downloader environment in which the server answers 404. -/
def dlEnv404 : DLEnv :=
  { tempFile := Except.ok "ooni-sync.tmp.2", filterInit := Except.ok (),
    get := Except.ok ⟨404, "404 Not Found", [60, 104]⟩,
    copyFail := none, bodyCloseErr := none, closeErr := none }

/-- A downloader environment in which the temp file is created but the -xz
output filter fails to initialize (e.g. the xz binary cannot be started). -/
def dlEnvFilterFail : DLEnv :=
  { tempFile := Except.ok "ooni-sync.tmp.4",
    filterInit := Except.error "xz: exec failed",
    get := Except.ok ⟨200, "200 OK", []⟩,
    copyFail := none, bodyCloseErr := none, closeErr := none }

/-- Worker environment over an empty output directory ".", with the URL
oracle instantiated to Go url.Parse's actual behaviour on
"https://example.com/": the parse succeeds and yields Path "/".  os.Stat
finds exactly the output directory itself (which main creates with
MkdirAll before any worker runs). -/
def fsEnvRoot : FSEnv :=
  { parseURL := fun _ => Except.ok ⟨"/"⟩,
    stat := fun f => if f = "." then StatResult.found else StatResult.notExist,
    dl := dlEnvOk }

/-- Worker environment for a second run: the listing contains one item whose
URL has path "/f1.json", and the local directory already holds the file
published by the first run under the derived name "f1.json". -/
def fsEnvSecondRun : FSEnv :=
  { parseURL := fun _ => Except.ok ⟨"/f1.json"⟩,
    stat := fun f =>
      if f ∈ ["f1.json"] then StatResult.found else StatResult.notExist,
    dl := dlEnvOk }

end OoniSync

namespace OoniSync

theorem processIndex_of_goodSeq (offset : Nat) (pfx : List OoniIndexPage)
    (hgood : GoodSeq offset pfx) :
    ∀ sfx, processIndex (pfx ++ sfx) offset = (pagesURLs pfx, none) := by
  induction hgood with
  | last offset p hlim hoff hzero heq =>
    intro sfx
    have hz : ¬(0 < p.metadata.count ∧ p.results = []) := by simpa using hzero
    simp [processIndex, hlim, hoff, hz, heq, pagesURLs]
  | cons offset p rest hlim hoff hlen hlt hgood ih =>
    intro sfx
    have hz : ¬(0 < p.metadata.count ∧ p.results = []) := by
      rintro ⟨-, hnil⟩
      exact hlen (by simp [hnil])
    have hgt : ¬(offset + p.results.length > p.metadata.count) := not_lt.mpr (le_of_lt hlt)
    have hne : offset + p.results.length ≠ p.metadata.count := ne_of_lt hlt
    simp [processIndex, hlim, hoff, hz, hgt, hne, ih sfx, pagesURLs]

theorem processIndex_none_split (pages : List OoniIndexPage) :
    ∀ (offset : Nat) (urls : List String),
      processIndex pages offset = (urls, none) →
      ∃ pfx sfx, pages = pfx ++ sfx ∧ GoodSeq offset pfx ∧ urls = pagesURLs pfx := by
  induction pages with
  | nil =>
    intro offset urls h
    simp [processIndex] at h
  | cons p rest ih =>
    intro offset urls h
    by_cases hlim : p.metadata.limit = ooniAPILimit
    · by_cases hoff : p.metadata.offset = offset
      · by_cases hzero : 0 < p.metadata.count ∧ p.results = []
        · simp [processIndex, hlim, hoff, hzero] at h
        · by_cases hgt : offset + p.results.length > p.metadata.count
          · simp [processIndex, hlim, hoff, hzero, hgt] at h
          · by_cases heq : offset + p.results.length = p.metadata.count
            · have hurls : urls = pageURLs p := by
                simp [processIndex, hlim, hoff, hzero, hgt, heq] at h
                exact h.symm
              exact ⟨[p], rest, rfl,
                GoodSeq.last offset p hlim hoff (by simpa using hzero) heq,
                by simp [pagesURLs, hurls]⟩
            · rcases hr : processIndex rest (offset + p.results.length) with ⟨us, e⟩
              simp [processIndex, hlim, hoff, hzero, hgt, heq, hr] at h
              obtain ⟨hurls, he⟩ := h
              obtain ⟨pfx, sfx, hsp, hgood, hu⟩ :=
                ih (offset + p.results.length) us (by rw [hr, he])
              have hlt : offset + p.results.length < p.metadata.count :=
                lt_of_le_of_ne (not_lt.mp hgt) heq
              have hlen : p.results.length ≠ 0 := by
                intro hlen0
                exact hzero ⟨Nat.lt_of_le_of_lt (Nat.zero_le offset)
                  (by simpa [hlen0] using hlt), by simpa using hlen0⟩
              exact ⟨p :: pfx, sfx, by simp [hsp],
                GoodSeq.cons offset p pfx hlim hoff hlen hlt hgood,
                by simp [pagesURLs, ← hurls, hu]⟩
      · have hoff2 : offset ≠ p.metadata.offset := fun he => hoff he.symm
        simp [processIndex, hlim, hoff2] at h
    · simp [processIndex, hlim] at h

/-- Claim C3: for every sequence of valid index pages, the paginator starts at
offset 0, advances the offset after each page by exactly the number of items
the page returned, emits exactly the items returned (each item's download URL,
in page order), and terminates normally exactly when the cumulative offset
equals the latest page's reported count.  Formally: running processIndex from
offset 0 over the server's page stream succeeds iff the stream begins with a
GoodSeq prefix (every page passes the checks at the cumulative offsets
0, len p1, len p1 + len p2, ... and the last consumed page's reported count
equals the cumulative offset), and then the emitted URLs are exactly the
concatenation of the consumed pages' URLs in page order. -/
theorem processIndex_pagination (pages : List OoniIndexPage) (urls : List String) :
    processIndex pages 0 = (urls, none) ↔
      ∃ pfx sfx, pages = pfx ++ sfx ∧ GoodSeq 0 pfx ∧ urls = pagesURLs pfx := by
  constructor
  · exact processIndex_none_split pages 0 urls
  · rintro ⟨pfx, sfx, rfl, hgood, rfl⟩
    exact processIndex_of_goodSeq 0 pfx hgood sfx

theorem processIndex_mismatch_general (bad : OoniIndexPage) (rest : List OoniIndexPage)
    (offE : Nat)
    (hbad : bad.metadata.limit ≠ ooniAPILimit ∨ bad.metadata.offset ≠ offE) :
    ∀ (pfx : List OoniIndexPage) (offset : Nat), ContSeq offset offE pfx →
      processIndex (pfx ++ bad :: rest) offset =
        (pagesURLs pfx,
         some (if bad.metadata.limit = ooniAPILimit
               then IndexError.offsetMismatch offE bad.metadata.offset
               else IndexError.limitMismatch ooniAPILimit bad.metadata.limit)) := by
  intro pfx offset hcont
  induction hcont with
  | nil offset =>
    by_cases hlim : bad.metadata.limit = ooniAPILimit
    · have hoffne : bad.metadata.offset ≠ offset := by
        rcases hbad with h | h
        · exact absurd hlim h
        · exact h
      have hoff2 : offset ≠ bad.metadata.offset := fun he => hoffne he.symm
      simp [processIndex, hlim, hoff2, pagesURLs]
    · simp [processIndex, hlim, pagesURLs]
  | cons offset offE p rest2 hlim hoff hlen hlt hcont ih =>
    have hz : ¬(0 < p.metadata.count ∧ p.results = []) := by
      rintro ⟨-, hnil⟩
      exact hlen (by simp [hnil])
    have hgt : ¬(offset + p.results.length > p.metadata.count) := not_lt.mpr (le_of_lt hlt)
    have hne : offset + p.results.length ≠ p.metadata.count := ne_of_lt hlt
    simp [processIndex, hlim, hoff, hz, hgt, hne, ih hbad, pagesURLs]

/-- Claim C4: for every index page whose returned limit differs from the
requested limit (ooniAPILimit), or whose returned offset differs from the
requested offset, the paginator returns a protocol error that aborts the sync:
the result is independent of any pages after the offending one (none are
fetched), and only the URLs of the pages before the offending one were
emitted, so no download beyond those is ever started. -/
theorem processIndex_mismatch_aborts (pfx : List OoniIndexPage) (offE : Nat)
    (bad : OoniIndexPage) (rest : List OoniIndexPage)
    (hcont : ContSeq 0 offE pfx)
    (hbad : bad.metadata.limit ≠ ooniAPILimit ∨ bad.metadata.offset ≠ offE) :
    ∃ e : IndexError,
      processIndex (pfx ++ bad :: rest) 0 = (pagesURLs pfx, some e) ∧
      (e = IndexError.limitMismatch ooniAPILimit bad.metadata.limit ∨
       e = IndexError.offsetMismatch offE bad.metadata.offset) := by
  refine ⟨_, processIndex_mismatch_general bad rest offE hbad pfx 0 hcont, ?_⟩
  by_cases hlim : bad.metadata.limit = ooniAPILimit
  · simp [hlim]
  · simp [hlim]

/-- Witness for C4: a first page reporting limit 999 instead of 1000 aborts
the sync with a limit-mismatch protocol error and zero URLs emitted,
whatever pages would follow. -/
theorem processIndex_mismatch_aborts_witness :
    ∃ e : IndexError,
      processIndex ([] ++ (⟨⟨5, 0, 999⟩, [⟨"u1", 0⟩]⟩ : OoniIndexPage) :: []) 0 =
        (pagesURLs [], some e) ∧
      (e = IndexError.limitMismatch ooniAPILimit 999 ∨
       e = IndexError.offsetMismatch 0 0) :=
  processIndex_mismatch_aborts [] 0 ⟨⟨5, 0, 999⟩, [⟨"u1", 0⟩]⟩ []
    (ContSeq.nil 0) (Or.inl (by decide))

/-- Claim C9: for a first index page reporting count = 0 with zero items (and
the expected limit and offset), the paginator terminates normally after
exactly one page request (the result does not depend on any later pages) and
emits zero download URLs, with no error. -/
theorem processIndex_zero_count (p : OoniIndexPage) (rest : List OoniIndexPage)
    (hcount : p.metadata.count = 0) (hoff : p.metadata.offset = 0)
    (hlim : p.metadata.limit = ooniAPILimit) (hres : p.results = []) :
    processIndex (p :: rest) 0 = ([], none) := by
  simp [processIndex, hlim, hoff, hcount, hres, pageURLs]

/-- Witness for C9 at the concrete empty first page. -/
theorem processIndex_zero_count_witness :
    processIndex ((⟨⟨0, 0, 1000⟩, []⟩ : OoniIndexPage) :: []) 0 = ([], none) :=
  processIndex_zero_count ⟨⟨0, 0, 1000⟩, []⟩ [] rfl rfl rfl rfl

theorem downloadToWriteCloser_trace (env : DLEnv) (w : List Nat) :
    (downloadToWriteCloser env w).2 = [DLEvent.net] ∨
    (downloadToWriteCloser env w).2 = [DLEvent.net, DLEvent.net] := by
  unfold downloadToWriteCloser
  cases env.get with
  | error e => simp
  | ok resp =>
    by_cases hs : resp.status ≠ 200
    · simp [hs]
    · cases env.copyFail <;> simp [hs]

/-- Claim C2: for every download attempt that reaches downloadToTmpFile, the
temporary file is created and its name is sent on tmpFilenameChan before any
network access happens: on every execution path whose trace contains a
network event, the trace begins with the creation followed immediately by the
send of the same name; and on no path does the downloader delete or rename
any file. -/
theorem downloadToTmpFile_ordering (env : DLEnv) :
    (DLEvent.net ∈ (downloadToTmpFile env).2 →
      ∃ name rest, (downloadToTmpFile env).2 =
        DLEvent.createTempFile name :: DLEvent.sendTmpName name :: rest) ∧
    (∀ n, DLEvent.deleteFile n ∉ (downloadToTmpFile env).2) ∧
    (∀ a b, DLEvent.renameFile a b ∉ (downloadToTmpFile env).2) := by
  unfold downloadToTmpFile
  cases env.tempFile with
  | error e => exact ⟨by simp, by simp, by simp⟩
  | ok name =>
    cases env.filterInit with
    | error e =>
      refine ⟨fun hnet => absurd hnet (by simp), by simp, by simp⟩
    | ok u =>
      refine ⟨fun _ => ⟨name, _, rfl⟩, ?_, ?_⟩
      · intro n
        rcases downloadToWriteCloser_trace env [] with h | h <;> simp [h]
      · intro a b
        rcases downloadToWriteCloser_trace env [] with h | h <;> simp [h]

/-- Witness for C2 at dlEnvOk, a path whose trace does contain network
events. -/
theorem downloadToTmpFile_ordering_witness :
    ∃ name rest, (downloadToTmpFile dlEnvOk).2 =
      DLEvent.createTempFile name :: DLEvent.sendTmpName name :: rest :=
  (downloadToTmpFile_ordering dlEnvOk).1 (by decide)

/-- Claim C5: for every download whose HTTP response status is not 200,
downloadToWriteCloser reports an error carrying the status text and writes
nothing of the body into the output (the body is never treated as content),
downloadToTmpFile therefore returns a non-nil error in the DownloadResult,
and in the coordinator the only transition that puts a non-temp name on disk
is the rename performed for a result whose error is nil — so the file is
never published under its final name. -/
theorem non200_never_published (env : DLEnv) (resp : HttpResponse) (w : List Nat)
    (hget : env.get = Except.ok resp) (hstatus : resp.status ≠ 200) :
    (downloadToWriteCloser env w).1 =
      (w, some (String.append "got " resp.statusText)) ∧
    (downloadToTmpFile env).1.2 ≠ none ∧
    (∀ s u : SyncState, ∀ f : String, Step s u → f ∈ u.disk → f ∉ s.disk →
       f ∈ u.createdTemps ∨
       ∃ r : DownloadResult,
         f = r.localFilename ∧ r.err = none ∧ r.alreadyExists = false) := by
  have hwc : ∀ w0 : List Nat, downloadToWriteCloser env w0 =
      ((w0, some (String.append "got " resp.statusText)), [DLEvent.net]) := by
    intro w0
    simp [downloadToWriteCloser, hget, hstatus]
  refine ⟨by rw [hwc w], ?_, ?_⟩
  · unfold downloadToTmpFile
    cases env.tempFile with
    | error e => simp
    | ok name =>
      cases env.filterInit with
      | error e => simp
      | ok u => simp [hwc []]
  · intro s u f hstep hfu hfs
    cases hstep with
    | createTemp tmp hph hd hc =>
      rcases List.mem_cons.mp hfu with rfl | hf2
      · exact Or.inl (List.mem_cons_self _ _)
      · exact absurd hf2 hfs
    | recvNotice tmp hph hp => exact absurd hfu hfs
    | resultError r hph he => exact absurd hfu hfs
    | resultExists r hph he hx => exact absurd hfu hfs
    | resultRenameOk r hph herr hex hdk hloc =>
      rcases List.mem_cons.mp hfu with rfl | hf2
      · exact Or.inr ⟨r, rfl, herr, hex⟩
      · exact absurd (List.mem_of_mem_erase hf2) hfs
    | resultRenameFail r hph herr hex => exact absurd hfu hfs
    | interrupt hph => exact absurd hfu hfs
    | finish hph => exact absurd hfu hfs
    | cleanup F hph => exact absurd (List.mem_of_mem_filter hfu) hfs

/-- Witness for C5 at the concrete 404 environment. -/
theorem non200_never_published_witness :
    (downloadToWriteCloser dlEnv404 []).1 =
      ([], some (String.append "got " "404 Not Found")) ∧
    (downloadToTmpFile dlEnv404).1.2 ≠ none ∧
    (∀ s u : SyncState, ∀ f : String, Step s u → f ∈ u.disk → f ∉ s.disk →
       f ∈ u.createdTemps ∨
       ∃ r : DownloadResult,
         f = r.localFilename ∧ r.err = none ∧ r.alreadyExists = false) :=
  non200_never_published dlEnv404 ⟨404, "404 Not Found", [60, 104]⟩ []
    rfl (by decide)

/-- Claim C10: if the output transform fails to initialize after the
temporary file has been created, downloadToTmpFile returns "" as the
temp-file name together with the error; the trace shows the name was
nevertheless created and sent on the tracking channel before the transform
was constructed, and any state in which that name is tracked has it deleted
from disk by the cleanup sweep (when its os.Remove does not itself fail). -/
theorem filterInit_failure_tracked (env : DLEnv) (name e : String)
    (h1 : env.tempFile = Except.ok name) (h2 : env.filterInit = Except.error e) :
    (downloadToTmpFile env).1 = ("", some e) ∧
    (downloadToTmpFile env).2 =
      [DLEvent.createTempFile name, DLEvent.sendTmpName name] ∧
    (∀ (s : SyncState) (F : List String), name ∈ s.tracked → name ∉ F →
       name ∉ (cleanupRun s F).disk) := by
  refine ⟨by simp [downloadToTmpFile, h1, h2], by simp [downloadToTmpFile, h1, h2], ?_⟩
  intro s F htr hnF hmem
  rw [cleanupRun] at hmem
  rw [List.mem_filter] at hmem
  have h3 := hmem.2
  simp only [decide_eq_true_eq] at h3
  rcases h3 with h3 | h3
  · exact h3 htr
  · exact hnF h3

/-- Witness for C10 at the concrete failing-filter environment. -/
theorem filterInit_failure_tracked_witness :
    (downloadToTmpFile dlEnvFilterFail).1 = ("", some "xz: exec failed") ∧
    (downloadToTmpFile dlEnvFilterFail).2 =
      [DLEvent.createTempFile "ooni-sync.tmp.4",
       DLEvent.sendTmpName "ooni-sync.tmp.4"] ∧
    (∀ (s : SyncState) (F : List String),
       "ooni-sync.tmp.4" ∈ s.tracked → "ooni-sync.tmp.4" ∉ F →
       "ooni-sync.tmp.4" ∉ (cleanupRun s F).disk) :=
  filterInit_failure_tracked dlEnvFilterFail "ooni-sync.tmp.4" "xz: exec failed"
    rfl rfl

/-- Counterexample to claim C7: for the URL "https://example.com/" (whose
path has no final file segment), maybeDownload raises no naming error at
all — path.Base gives "/", the derived local name cleans to the output
directory "." itself, the stat finds it, and the item is reported as exists
with err = nil and no download started. -/
theorem no_naming_error_counterexample :
    (maybeDownload fsEnvRoot "." "" "https://example.com/").1 =
      { url := "https://example.com/", localFilename := ".", tmpFilename := "",
        alreadyExists := true, err := none } ∧
    (maybeDownload fsEnvRoot "." "" "https://example.com/").2 = [] := by
  constructor <;> rfl

/-- Claim C7 (amended): for a URL whose path has no final file segment (root
path "/" or empty path), the existence filter does not fail: path.Base maps
the path to "/" or ".", filepath.Join cleans the derived name to the output
directory itself, and since main has created that directory the item is
reported as already existing, with no error recorded and no download
started; other items are unaffected (maybeDownload is per-item). -/
theorem root_path_reports_exists (fs : FSEnv) (url : String) (u : GoURL)
    (hparse : fs.parseURL url = Except.ok u)
    (hpath : u.path = "/" ∨ u.path = "")
    (hstat : fs.stat "." = StatResult.found) :
    (maybeDownload fs "." "" url).1.alreadyExists = true ∧
    (maybeDownload fs "." "" url).1.err = none ∧
    (maybeDownload fs "." "" url).2 = [] := by
  have hname : String.append (filepathJoin [".", pathBase u.path]) "" = "." := by
    rcases hpath with h | h <;> rw [h] <;> rfl
  simp [maybeDownload, hparse, hname, hstat]

/-- Witness for the amended C7 at the concrete root-path environment. -/
theorem root_path_reports_exists_witness :
    (maybeDownload fsEnvRoot "." "" "https://example.com/").1.alreadyExists = true ∧
    (maybeDownload fsEnvRoot "." "" "https://example.com/").1.err = none ∧
    (maybeDownload fsEnvRoot "." "" "https://example.com/").2 = [] :=
  root_path_reports_exists fsEnvRoot "https://example.com/" ⟨"/"⟩ rfl
    (Or.inl rfl) rfl

/-- Claim C8: run the sync a second time against an unchanged remote listing
and an unchanged local directory in which the first run published every
item under its derived local name; then for every item the existence check
finds the local file and the item is reported as exists, with no error and
zero downloads performed (the worker's event trace is empty). -/
theorem second_run_zero_downloads (fs : FSEnv) (dir ext : String)
    (urls disk : List String)
    (hstat : ∀ f, fs.stat f =
      if f ∈ disk then StatResult.found else StatResult.notExist)
    (hpub : ∀ url ∈ urls, ∃ u, fs.parseURL url = Except.ok u ∧
      String.append (filepathJoin [dir, pathBase u.path]) ext ∈ disk) :
    ∀ url ∈ urls,
      (maybeDownload fs dir ext url).1.alreadyExists = true ∧
      (maybeDownload fs dir ext url).1.err = none ∧
      (maybeDownload fs dir ext url).2 = [] := by
  intro url hurl
  obtain ⟨u, hparse, hmem⟩ := hpub url hurl
  have hs := hstat (String.append (filepathJoin [dir, pathBase u.path]) ext)
  rw [if_pos hmem] at hs
  simp [maybeDownload, hparse, hs]

theorem step_preserves_inv {s t : SyncState} (hstep : Step s t)
    (h1 : ∀ x ∈ s.createdTemps, x ∈ s.disk → x ∈ s.tracked ∨ x ∈ s.pending)
    (h2 : ∀ x ∈ s.createdTemps, s.disk.count x ≤ 1) :
    (∀ x ∈ t.createdTemps, x ∈ t.disk → x ∈ t.tracked ∨ x ∈ t.pending) ∧
    (∀ x ∈ t.createdTemps, t.disk.count x ≤ 1) := by
  cases hstep with
  | createTemp tmp hph hd hc =>
    refine ⟨?_, ?_⟩
    · intro x hx hxd
      rcases List.mem_cons.mp hx with rfl | hx2
      · exact Or.inr (List.mem_cons_self _ _)
      · rcases List.mem_cons.mp hxd with rfl | hxd2
        · exact Or.inr (List.mem_cons_self _ _)
        · exact (h1 x hx2 hxd2).imp id (List.mem_cons_of_mem _)
    · intro x hx
      rcases List.mem_cons.mp hx with rfl | hx2
      · simp [List.count_cons_self, List.count_eq_zero.mpr hd]
      · by_cases hxe : x = tmp
        · subst hxe
          simp [List.count_cons_self, List.count_eq_zero.mpr hd]
        · rw [List.count_cons_of_ne hxe]
          exact h2 x hx2
  | recvNotice tmp hph hp =>
    refine ⟨?_, fun x hx => h2 x hx⟩
    intro x hx hxd
    rcases h1 x hx hxd with htr | hpe
    · exact Or.inl (List.mem_cons_of_mem _ htr)
    · by_cases hxe : x = tmp
      · subst hxe
        exact Or.inl (List.mem_cons_self _ _)
      · exact Or.inr ((List.mem_erase_of_ne hxe).mpr hpe)
  | resultError r hph he => exact ⟨h1, h2⟩
  | resultExists r hph he hx => exact ⟨h1, h2⟩
  | resultRenameOk r hph herr hex hdk hloc =>
    refine ⟨?_, ?_⟩
    · intro x hx hxd
      rcases List.mem_cons.mp hxd with rfl | hxd2
      · exact absurd hx hloc
      · have hxs : x ∈ s.disk := List.mem_of_mem_erase hxd2
        rcases h1 x hx hxs with htr | hpe
        · left
          by_cases hxe : x = r.tmpFilename
          · exfalso
            rw [hxe] at hx hxd2
            have hcount := h2 _ hx
            have hpos :
                0 < (s.disk.erase r.tmpFilename).count r.tmpFilename :=
              List.count_pos_iff.mpr hxd2
            rw [List.count_erase_self] at hpos
            omega
          · exact (List.mem_erase_of_ne hxe).mpr htr
        · exact Or.inr hpe
    · intro x hx
      have hxlocal : x ≠ r.localFilename := fun he2 => hloc (he2 ▸ hx)
      calc (r.localFilename :: s.disk.erase r.tmpFilename).count x
          = (s.disk.erase r.tmpFilename).count x := List.count_cons_of_ne hxlocal _
        _ ≤ s.disk.count x := (List.erase_sublist _ _).count_le x
        _ ≤ 1 := h2 x hx
  | resultRenameFail r hph herr hex => exact ⟨h1, h2⟩
  | interrupt hph => exact ⟨h1, h2⟩
  | finish hph => exact ⟨h1, h2⟩
  | cleanup F hph =>
    refine ⟨?_, ?_⟩
    · intro x hx hxd
      exact h1 x hx (List.mem_of_mem_filter hxd)
    · intro x hx
      exact le_trans ((List.filter_sublist _).count_le x) (h2 x hx)

theorem reachable_inv (d0 : List String) (s : SyncState) (h : Reachable d0 s) :
    (∀ x ∈ s.createdTemps, x ∈ s.disk → x ∈ s.tracked ∨ x ∈ s.pending) ∧
    (∀ x ∈ s.createdTemps, s.disk.count x ≤ 1) := by
  induction h with
  | init => exact ⟨by simp [initState], by simp [initState]⟩
  | step hr hstep ih => exact step_preserves_inv hstep ih.1 ih.2

/-- Counterexample to claim C1 as stated: the tmpFilenameChan is unbuffered,
so right after a worker's ioutil.TempFile call returns the temp file is
physically on disk while its creation notice has not yet been received, and
the file is neither in the coordinator's tracked set nor renamed nor
deleted.  The state reached from a fresh run by that single worker step
violates the claimed invariant. -/
theorem trackedInvariant_counterexample :
    Reachable [] afterCreateState ∧ ¬ trackedInvariant afterCreateState := by
  constructor
  · exact Reachable.step Reachable.init
      (Step.createTemp (initState []) "ooni-sync.tmp.1" rfl
        (by simp [initState]) (by simp [initState]))
  · intro hinv
    have := hinv "ooni-sync.tmp.1" (by simp [afterCreateState])
      (by simp [afterCreateState])
    simp [afterCreateState] at this

/-- Claim C1 (amended): at every reachable state of a run, every temp file
created by this run's workers that is physically present on disk is either
represented in the coordinator's tracked set or still pending on the
(unbuffered) tracking side-channel; a file already renamed to its final name
or already deleted is no longer present under its temp name.  Temp-notice
handling, result handling and cleanup (and the worker steps) all preserve
this invariant. -/
theorem tracked_or_pending_invariant (d0 : List String) (s : SyncState)
    (h : Reachable d0 s) :
    ∀ t ∈ s.createdTemps, t ∈ s.disk → t ∈ s.tracked ∨ t ∈ s.pending :=
  (reachable_inv d0 s h).1

/-- Witness for the amended C1 at the state right after a temp creation. -/
theorem tracked_or_pending_invariant_witness :
    "ooni-sync.tmp.1" ∈ afterCreateState.tracked ∨
      "ooni-sync.tmp.1" ∈ afterCreateState.pending :=
  tracked_or_pending_invariant [] afterCreateState
    (Reachable.step Reachable.init
      (Step.createTemp (initState []) "ooni-sync.tmp.1" rfl
        (by simp [initState]) (by simp [initState])))
    "ooni-sync.tmp.1" (by simp [afterCreateState]) (by simp [afterCreateState])

theorem errorEventCount_eq_zero (evs : List SyncEvent) :
    errorEventCount evs = 0 ↔
      SyncEvent.errorLogged ∉ evs ∧ SyncEvent.cleanupError ∉ evs := by
  unfold errorEventCount
  rw [List.length_eq_zero, List.filter_eq_nil_iff]
  constructor
  · intro hall
    exact ⟨fun hmem => hall _ hmem (by simp), fun hmem => hall _ hmem (by simp)⟩
  · rintro ⟨hne, hnc⟩ a ha hpa
    cases a with
    | errorLogged => exact hne ha
    | cleanupError => exact hnc ha
    | existsLogged => simp at hpa
    | okLogged => simp at hpa
    | interrupt => simp at hpa

theorem filter_err_replicate (k : Nat) :
    (List.replicate k SyncEvent.cleanupError).filter
      (fun e => e == SyncEvent.errorLogged || e == SyncEvent.cleanupError) =
    List.replicate k SyncEvent.cleanupError := by
  apply List.filter_eq_self.mpr
  intro a ha
  rw [List.eq_of_mem_replicate ha]
  rfl

theorem reachable_counters (d0 : List String) (s : SyncState)
    (h : Reachable d0 s) :
    s.numErrors = errorEventCount s.events ∧
      (s.signalFlag = true ↔ SyncEvent.interrupt ∈ s.events) := by
  induction h with
  | init => simp [initState, errorEventCount]
  | step hr hstep ih =>
    obtain ⟨ih1, ih2⟩ := ih
    cases hstep with
    | createTemp tmp hph hd hc => exact ⟨ih1, ih2⟩
    | recvNotice tmp hph hp => exact ⟨ih1, ih2⟩
    | resultError r hph he =>
      refine ⟨?_, ?_⟩
      · simp [errorEventCount, List.filter_cons] at ih1 ⊢
        omega
      · simp only [List.mem_cons]
        constructor
        · intro hs
          exact Or.inr (ih2.mp hs)
        · rintro (hcon | hmem)
          · simp at hcon
          · exact ih2.mpr hmem
    | resultExists r hph he hx =>
      refine ⟨?_, ?_⟩
      · simp [errorEventCount, List.filter_cons] at ih1 ⊢
        omega
      · simp only [List.mem_cons]
        constructor
        · intro hs
          exact Or.inr (ih2.mp hs)
        · rintro (hcon | hmem)
          · simp at hcon
          · exact ih2.mpr hmem
    | resultRenameOk r hph herr hex hdk hloc =>
      refine ⟨?_, ?_⟩
      · simp [errorEventCount, List.filter_cons] at ih1 ⊢
        omega
      · simp only [List.mem_cons]
        constructor
        · intro hs
          exact Or.inr (ih2.mp hs)
        · rintro (hcon | hmem)
          · simp at hcon
          · exact ih2.mpr hmem
    | resultRenameFail r hph herr hex =>
      refine ⟨?_, ?_⟩
      · simp [errorEventCount, List.filter_cons] at ih1 ⊢
        omega
      · simp only [List.mem_cons]
        constructor
        · intro hs
          exact Or.inr (ih2.mp hs)
        · rintro (hcon | hmem)
          · simp at hcon
          · exact ih2.mpr hmem
    | interrupt hph =>
      refine ⟨?_, ?_⟩
      · simp [errorEventCount, List.filter_cons] at ih1 ⊢
        omega
      · simp [List.mem_cons]
    | finish hph => exact ⟨ih1, ih2⟩
    | cleanup F hph =>
      refine ⟨?_, ?_⟩
      · simp only [cleanupRun]
        unfold errorEventCount at ih1 ⊢
        rw [List.filter_append, filter_err_replicate, List.length_append,
          List.length_replicate]
        omega
      · simp only [cleanupRun]
        rw [List.mem_append]
        constructor
        · intro hs
          exact Or.inr (ih2.mp hs)
        · rintro (hrep | hmem)
          · have := List.eq_of_mem_replicate hrep
            simp at this
          · exact ih2.mpr hmem

/-- Claim C6: in every reachable final state (the process has exited), the
exit status is 0 iff no per-item or rename error was logged, no cleanup
deletion error was logged, and no interrupt signal was observed; otherwise
the exit status is non-zero (namely 1). -/
theorem exit_code_iff (d0 : List String) (s : SyncState)
    (h : Reachable d0 s) (_hdone : s.phase = Phase.done) :
    exitCode s = 0 ↔
      (SyncEvent.errorLogged ∉ s.events ∧ SyncEvent.cleanupError ∉ s.events ∧
       SyncEvent.interrupt ∉ s.events) := by
  obtain ⟨h1, h2⟩ := reachable_counters d0 s h
  have hcount := errorEventCount_eq_zero s.events
  unfold exitCode
  constructor
  · intro h0
    have hnc : ¬(0 < s.numErrors ∨ s.signalFlag = true) := by
      intro hc
      rw [if_pos hc] at h0
      exact one_ne_zero h0
    push_neg at hnc
    obtain ⟨hn0, hsf⟩ := hnc
    have hzero : errorEventCount s.events = 0 := by omega
    obtain ⟨hne, hnc2⟩ := hcount.mp hzero
    exact ⟨hne, hnc2, fun hi => hsf (h2.mpr hi)⟩
  · rintro ⟨hne, hnc2, hni⟩
    have hz : s.numErrors = 0 := by
      rw [h1]
      exact hcount.mpr ⟨hne, hnc2⟩
    have hsf : s.signalFlag ≠ true := fun hs => hni (h2.mp hs)
    rw [if_neg]
    rintro (hpos | hsig)
    · omega
    · exact hsf hsig

/-- Witness for C6: the clean empty run exits through the sweep with no
logged error and no interrupt. -/
theorem exit_code_iff_witness :
    exitCode cleanDoneState = 0 ↔
      (SyncEvent.errorLogged ∉ cleanDoneState.events ∧
       SyncEvent.cleanupError ∉ cleanDoneState.events ∧
       SyncEvent.interrupt ∉ cleanDoneState.events) :=
  exit_code_iff [] cleanDoneState
    (Reachable.step (Reachable.step Reachable.init
        (Step.finish (initState []) rfl))
      (Step.cleanup { initState [] with phase := Phase.stopped } [] rfl))
    rfl

/-- Witness for C8: a one-item listing whose file "f1.json" is already on
disk from the first run. -/
theorem second_run_zero_downloads_witness :
    (maybeDownload fsEnvSecondRun "." "" "https://api/f1.json").1.alreadyExists = true ∧
    (maybeDownload fsEnvSecondRun "." "" "https://api/f1.json").1.err = none ∧
    (maybeDownload fsEnvSecondRun "." "" "https://api/f1.json").2 = [] :=
  second_run_zero_downloads fsEnvSecondRun "." "" ["https://api/f1.json"]
    ["f1.json"] (fun _ => rfl)
    (fun url _ => ⟨⟨"/f1.json"⟩, rfl, by decide⟩)
    "https://api/f1.json" (by decide)

end OoniSync
